import Mathlib

/-!
# Verification of the Page Pipeline

A shallow embedding, in Lean, of the core of the `sourcelibrary-v2`
repository: the Page Ledger operations (bulk ingestion append, delete with
renumbering, reorder, split with renumbering) implemented by the API route
handlers, the chained transcription pipeline of `geminiService`
(`performOCR`, `performTranslation`, `generateSummary`,
`processPageComplete`), and the batch orchestrator loop of the prepare
page (`processPages` / `stopProcessing`).

Modelling conventions:
* The MongoDB `pages` collection is a `List Page`; `updateOne`,
  `deleteOne`, `findOne` and `insertOne` act on the first matching
  element, as MongoDB does for a unique-id filter.
* `sort({page_number: 1})` is modelled by a stable insertion sort on the
  `page_number` key.
* JavaScript page numbers are exact dyadic values here: every number the
  code ever stores in `page_number` is either an integer (`i + 1`
  assignments) or an integer plus one half (the transient
  `currentPageNumber + 0.5` sentinel used during a split), both exactly
  representable. `Pn h` denotes the number `h / 2`.
* Crop coordinates and `splitRatio` use the route's documented `0-100`
  integer scale (`splitRatio?: number; // Where to split (0-100, default 50)`).
* Timestamps (`updated_at`, `created_at`) are wall-clock side data and are
  not modelled; no claim mentions them.
-/

/-- A page number: the JS number `halves / 2`.  Written this way so that
the transient `+ 0.5` used by the split route is represented exactly. -/
structure Pn where
  halves : Int
  deriving DecidableEq, Repr

/-- The integer page number `n`. -/
def Pn.int (n : Int) : Pn := ⟨2 * n⟩

/-- `p + 1` on page numbers. -/
def Pn.addOne (p : Pn) : Pn := ⟨p.halves + 2⟩

/-- `p + 0.5` on page numbers (the split route's provisional number). -/
def Pn.addHalf (p : Pn) : Pn := ⟨p.halves + 1⟩

/-- Numeric order on page numbers (used by `sort({page_number: 1})`). -/
def Pn.le (a b : Pn) : Prop := a.halves ≤ b.halves

instance : DecidableRel Pn.le := fun a b => inferInstanceAs (Decidable (a.halves ≤ b.halves))

instance : IsTotal Pn Pn.le := ⟨fun a b => Int.le_total a.halves b.halves⟩

instance : IsTrans Pn Pn.le := ⟨fun _ _ _ h h' => Int.le_trans h h'⟩

/-- Strict numeric order on page numbers. -/
def Pn.lt (a b : Pn) : Prop := a.halves < b.halves

instance : IsAntisymm Pn Pn.lt :=
  ⟨fun _ _ h h' => absurd (Int.lt_trans h h') (lt_irrefl _)⟩

/-- The list `[Pn.int start, Pn.int (start+1), ..]` of `n` consecutive
integer page numbers. -/
def pnSeq (start : Int) : Nat → List Pn
  | 0 => []
  | n + 1 => Pn.int start :: pnSeq (start + 1) n

/-- Error taxonomy of the route handlers: HTTP 404 (`Page not found`,
`Book not found`) and HTTP 400 (`Page has no image`, malformed body). -/
inductive Err where
  | notFound
  | invalidArgument
  deriving DecidableEq, Repr

instance {ε α : Type} [DecidableEq ε] [DecidableEq α] : DecidableEq (Except ε α) := fun x y =>
  match x, y with
  | .error a, .error b =>
    if h : a = b then isTrue (by rw [h]) else isFalse (fun hh => by cases hh; exact h rfl)
  | .ok a, .ok b =>
    if h : a = b then isTrue (by rw [h]) else isFalse (fun hh => by cases hh; exact h rfl)
  | .error _, .ok _ => isFalse (fun hh => Except.noConfusion hh)
  | .ok _, .error _ => isFalse (fun hh => Except.noConfusion hh)

/-- A crop region (`{ xStart, xEnd }`), on the split route's 0-100 axis. -/
structure CropData where
  xStart : Int
  xEnd : Int
  deriving DecidableEq, Repr

/-- A document of the `pages` collection.  Stage results are carried as
their text payload (`data`); `none` is MongoDB `null` / an absent field. -/
structure Page where
  id : String
  book_id : String
  page_number : Pn
  photo : Option String := none
  photo_original : Option String := none
  crop : Option CropData := none
  split_from : Option String := none
  ocr : Option String := none
  translation : Option String := none
  summary : Option String := none
  deriving DecidableEq, Repr

/-- The persistent store: the ids of the `books` collection plus the
`pages` collection. -/
structure Db where
  books : List String
  pages : List Page
  deriving DecidableEq, Repr

/-- `updateOne(filter, {$set: ...})`: rewrite the first matching document. -/
def updateOne (p : Page → Bool) (f : Page → Page) : List Page → List Page
  | [] => []
  | x :: xs => if p x then f x :: xs else x :: updateOne p f xs

/-- `deleteOne(filter)`: remove the first matching document. -/
def deleteOne (p : Page → Bool) : List Page → List Page
  | [] => []
  | x :: xs => if p x then xs else x :: deleteOne p xs

/-- `findOne({id})` over the `pages` collection. -/
def findPage (db : Db) (pid : String) : Option Page :=
  db.pages.find? (fun p => p.id == pid)

/-- `find({book_id})`: the book's pages, in collection order. -/
def pagesOfBook (db : Db) (bookId : String) : List Page :=
  db.pages.filter (fun p => p.book_id == bookId)

/-- `sort({page_number: 1})` comparison on documents. -/
def pageLe (a b : Page) : Prop := Pn.le a.page_number b.page_number

instance : DecidableRel pageLe := fun a b => inferInstanceAs (Decidable (Pn.le _ _))

instance : IsTotal Page pageLe := ⟨fun a b => Int.le_total _ _⟩

instance : IsTrans Page pageLe := ⟨fun _ _ _ h h' => Int.le_trans h h'⟩

/-- `sort({page_number: -1})` comparison on documents. -/
def pageGe (a b : Page) : Prop := Pn.le b.page_number a.page_number

instance : DecidableRel pageGe := fun a b => inferInstanceAs (Decidable (Pn.le _ _))

instance : IsTotal Page pageGe := ⟨fun a b => Int.le_total _ _⟩

instance : IsTrans Page pageGe := ⟨fun _ _ _ h h' => Int.le_trans h' h⟩

/-- Strict `page_number` comparison on documents. -/
def pageLt (a b : Page) : Prop := Pn.lt a.page_number b.page_number

instance : IsAntisymm Page pageLt :=
  ⟨fun _ _ h h' => absurd (Int.lt_trans h h') (lt_irrefl _)⟩

/-- `find({book_id}).sort({page_number: 1})`: the canonical ordered read. -/
def listOrdered (db : Db) (bookId : String) : List Page :=
  List.insertionSort pageLe (pagesOfBook db bookId)

/-- The renumbering / reordering loop shared by the DELETE, split and
reorder handlers: walk a list of page ids, issuing one `updateOne` per id
that sets `page_number` to the running counter (`i + 1` in the source).
`sel pid` is the `updateOne` filter used for id `pid`. -/
def numberLoop (sel : String → Page → Bool) (pages : List Page) : List String → Pn → List Page
  | [], _ => pages
  | pid :: rest, n =>
    numberLoop sel (updateOne (sel pid) (fun q => { q with page_number := n }) pages) rest n.addOne

/-- The renumbering pass of the DELETE and split handlers: fetch the
book's pages sorted by `page_number` ascending and assign `1..N` in that
order, one `updateOne({id: pages[i].id})` at a time. -/
def renumberBook (db : Db) (bookId : String) : Db :=
  { db with
    pages := numberLoop (fun pid q => q.id == pid) db.pages
      ((listOrdered db bookId).map (fun p => p.id)) (Pn.int 1) }

/-- `GET`-side of the upload route's next page number: sort the book's
pages by `page_number` descending, take the head, add one (or start at 1). -/
def nextPageNumber (db : Db) (bookId : String) : Pn :=
  match List.insertionSort pageGe (pagesOfBook db bookId) with
  | [] => Pn.int 1
  | p :: _ => p.page_number.addOne

/-- The page records created by the upload loop: one page per accepted
file, with consecutive page numbers starting at `nextPageNumber`, `photo`
and `photo_original` both set to the stored file's URL, and all stage
results `null`. -/
def mkNewPages (bookId : String) : Pn → List (String × String) → List Page
  | _, [] => []
  | n, (pid, photoUrl) :: rest =>
    { id := pid, book_id := bookId, page_number := n,
      photo := some photoUrl, photo_original := some photoUrl } ::
    mkNewPages bookId n.addOne rest

/-- `POST /api/upload` (bulk ingestion append): reject an empty file list
(HTTP 400) and a missing book (HTTP 404), then append one page per file
starting at the current maximum page number plus one.  `items` carries the
generated page id and stored photo URL of each accepted image file. -/
def insertPages (db : Db) (bookId : String) (items : List (String × String)) : Except Err Db :=
  if items.isEmpty then .error .invalidArgument
  else if db.books.contains bookId = false then .error .notFound
  else .ok { db with pages := db.pages ++ mkNewPages bookId (nextPageNumber db bookId) items }

/-- `DELETE /api/pages/[id]`: 404 when the page does not exist, otherwise
delete it and renumber the remaining pages of its book. -/
def deletePage (db : Db) (pid : String) : Except Err Db :=
  match findPage db pid with
  | none => .error .notFound
  | some page =>
    .ok (renumberBook { db with pages := deleteOne (fun p => p.id == pid) db.pages } page.book_id)

/-- `POST /api/books/[id]/reorder`: 404 when the book does not exist;
otherwise, for each position `i` of the supplied id list, issue
`updateOne({id: pageOrder[i], book_id}, {$set: {page_number: i + 1}})`.
The handler performs no validation of the id list against the book's
current pages. -/
def reorder (db : Db) (bookId : String) (pageOrder : List String) : Except Err Db :=
  if db.books.contains bookId = false then .error .notFound
  else .ok { db with
    pages := numberLoop (fun pid q => q.id == pid && q.book_id == bookId) db.pages pageOrder (Pn.int 1) }

/-- Which half the origin page keeps in a split. -/
inductive Side where
  | left
  | right
  deriving DecidableEq, Repr

/-- The JSON body returned by the split route. -/
structure SplitResponse where
  currentPageId : String
  currentCrop : CropData
  newPageId : String
  newCrop : CropData
  newPageNumber : Pn
  deriving DecidableEq, Repr

/-- `POST /api/pages/[id]` (split): 404 when the page or its book is
missing, 400 when the page has no image; otherwise store the kept side's
crop on the origin page, insert a new page carrying the other crop, the
same `photo`, and the provisional page number `origin + 0.5`, then
renumber the whole book (`1..N` over the `page_number`-sorted pages).
`newPageId` is the generated `ObjectId` of the new page. -/
def applySplit (db : Db) (pageId newPageId : String) (side : Side) (splitRatio : Int) :
    Except Err (Db × SplitResponse) :=
  match findPage db pageId with
  | none => .error .notFound
  | some currentPage =>
    if currentPage.photo = none then .error .invalidArgument
    else if db.books.contains currentPage.book_id = false then .error .notFound
    else
      let leftCrop : CropData := { xStart := 0, xEnd := splitRatio }
      let rightCrop : CropData := { xStart := splitRatio, xEnd := 100 }
      let currentCrop := match side with | .left => leftCrop | .right => rightCrop
      let newCrop := match side with | .left => rightCrop | .right => leftCrop
      let newPage : Page :=
        { id := newPageId, book_id := currentPage.book_id,
          page_number := currentPage.page_number.addHalf,
          photo := currentPage.photo, crop := some newCrop }
      let db1 : Db :=
        { db with
          pages := updateOne (fun q => q.id == pageId)
              (fun q => { q with crop := some currentCrop }) db.pages ++ [newPage] }
      .ok (renumberBook db1 currentPage.book_id,
        { currentPageId := pageId, currentCrop := currentCrop,
          newPageId := newPageId, newCrop := newCrop,
          newPageNumber := currentPage.page_number.addOne })

/-- Invariant 1 of the spec: the book's pages, read back in
`page_number` order, carry exactly the page numbers `1..N`. -/
def contiguousNumbering (db : Db) (bookId : String) : Prop :=
  (listOrdered db bookId).map (fun p => p.page_number) =
    pnSeq 1 (pagesOfBook db bookId).length

instance (db : Db) (bookId : String) : Decidable (contiguousNumbering db bookId) :=
  inferInstanceAs (Decidable (_ = _))

/-! ## Specification layer for the renumbering loops -/

/-- Position of the first id in `order` whose `updateOne` filter matches
document `q` (the iteration of the loop that last writes `q`). -/
def matchRank (sel : String → Page → Bool) (q : Page) : List String → Option Nat
  | [] => none
  | pid :: rest => if sel pid q then some 0 else (matchRank sel q rest).map (· + 1)

/-- Position of the first occurrence of `y` in a list of ids. -/
def rankOf (y : String) : List String → Option Nat
  | [] => none
  | x :: xs => if x = y then some 0 else (rankOf y xs).map (· + 1)

/-- The net effect of the numbering loop on one document: the document
matched at position `i` receives page number `n0 + i`; an unmatched
document is untouched. -/
def numberSpec (sel : String → Page → Bool) (order : List String) (n0 : Pn) (q : Page) : Page :=
  match matchRank sel q order with
  | some i => { q with page_number := ⟨n0.halves + 2 * i⟩ }
  | none => q

/-- A list of pages with `page_number` rewritten to `n0, n0+1, ...` in
list order and every other field untouched. -/
def withNumbersFrom : Pn → List Page → List Page
  | _, [] => []
  | n, p :: rest => { p with page_number := n } :: withNumbersFrom n.addOne rest

/-- `n0, n0+1, ...` (`k` values). -/
def pnFrom (n : Pn) : Nat → List Pn
  | 0 => []
  | k + 1 => n :: pnFrom n.addOne k

/-! ## Arithmetic and sequence lemmas -/

theorem Pn.int_addOne (s : Int) : (Pn.int s).addOne = Pn.int (s + 1) := by
  simp [Pn.int, Pn.addOne]; ring

theorem pnFrom_int_eq_pnSeq (s : Int) (n : Nat) : pnFrom (Pn.int s) n = pnSeq s n := by
  induction n generalizing s with
  | zero => rfl
  | succ n ih => simp [pnFrom, pnSeq, Pn.int_addOne, ih]

theorem pnFrom_length (n : Pn) (k : Nat) : (pnFrom n k).length = k := by
  induction k generalizing n with
  | zero => rfl
  | succ k ih => simp [pnFrom, ih]

theorem mem_pnFrom {x : Pn} {n : Pn} {k : Nat} (h : x ∈ pnFrom n k) :
    n.halves ≤ x.halves ∧ x.halves ≤ n.halves + 2 * (k - 1) := by
  induction k generalizing n with
  | zero => simp [pnFrom] at h
  | succ k ih =>
    simp only [pnFrom, List.mem_cons] at h
    rcases h with h | h
    · subst h; constructor
      · exact le_refl _
      · omega
    · rcases ih h with ⟨h1, h2⟩
      simp only [Pn.addOne] at h1 h2
      omega

theorem pairwise_lt_pnFrom (n : Pn) (k : Nat) : (pnFrom n k).Pairwise Pn.lt := by
  induction k generalizing n with
  | zero => exact List.Pairwise.nil
  | succ k ih =>
    refine List.Pairwise.cons (fun x hx => ?_) (ih n.addOne)
    have := (mem_pnFrom hx).1
    simp only [Pn.addOne] at this
    simp only [Pn.lt]
    omega

theorem sorted_le_pnFrom (n : Pn) (k : Nat) : (pnFrom n k).Pairwise Pn.le :=
  (pairwise_lt_pnFrom n k).imp (fun h => Int.le_of_lt h)

theorem nodup_pnFrom (n : Pn) (k : Nat) : (pnFrom n k).Nodup :=
  (pairwise_lt_pnFrom n k).imp (fun h heq => by cases heq; exact absurd h (lt_irrefl _))

theorem pnFrom_append (n : Pn) (a b : Nat) :
    pnFrom n (a + b) = pnFrom n a ++ pnFrom ⟨n.halves + 2 * a⟩ b := by
  induction a generalizing n with
  | zero =>
    have : (⟨n.halves + 2 * (0 : Nat)⟩ : Pn) = n := by cases n; simp
    simp [pnFrom, this]
  | succ a ih =>
    have h1 : a + 1 + b = (a + b) + 1 := by omega
    have h2 : (⟨n.addOne.halves + 2 * a⟩ : Pn) = ⟨n.halves + 2 * (a + 1 : Nat)⟩ := by
      simp only [Pn.addOne, Pn.mk.injEq]
      push_cast
      ring
    rw [h1]
    simp only [pnFrom, List.cons_append, ih n.addOne, h2]

/-! ## List-manipulation lemmas -/

theorem updateOne_map_id (p : Page → Bool) (f : Page → Page)
    (hf : ∀ q, (f q).id = q.id) (l : List Page) :
    (updateOne p f l).map Page.id = l.map Page.id := by
  induction l with
  | nil => rfl
  | cons x xs ih =>
    by_cases h : p x = true
    · simp [updateOne, h, hf]
    · simp only [Bool.not_eq_true] at h
      simp [updateOne, h, ih]

theorem deleteOne_sublist (p : Page → Bool) (l : List Page) : (deleteOne p l).Sublist l := by
  induction l with
  | nil => exact List.Sublist.slnil
  | cons x xs ih =>
    by_cases h : p x = true
    · simp only [deleteOne, h, if_true]
      exact List.sublist_cons_of_sublist x (List.Sublist.refl xs)
    · simp only [Bool.not_eq_true] at h
      simp only [deleteOne, h]
      simp only [Bool.false_eq_true, if_false]
      exact List.Sublist.cons₂ x ih

theorem updateOne_eq_map (sel : String → Page → Bool)
    (hid : ∀ pid q, sel pid q = true → q.id = pid)
    (pid : String) (f : Page → Page) (hf : ∀ q, (f q).id = q.id)
    (l : List Page) (hnd : (l.map Page.id).Nodup) :
    updateOne (sel pid) f l = l.map (fun q => if sel pid q then f q else q) := by
  induction l with
  | nil => rfl
  | cons x xs ih =>
    simp only [List.map_cons, List.nodup_cons] at hnd
    by_cases h : sel pid x = true
    · simp only [updateOne, h, if_true, List.map_cons]
      congr 1
      have : ∀ q ∈ xs, (if sel pid q then f q else q) = q := by
        intro q hq
        have hq' : sel pid q = false := by
          by_contra hc
          simp only [Bool.not_eq_false] at hc
          have hxq : x.id = q.id := by rw [hid pid x h, hid pid q hc]
          exact hnd.1 (by rw [hxq]; exact List.mem_map_of_mem Page.id hq)
        simp [hq']
      rw [List.map_congr_left this, List.map_id']
    · simp only [Bool.not_eq_true] at h
      simp only [updateOne, h, List.map_cons]
      simp only [Bool.false_eq_true, if_false]
      rw [ih hnd.2]

theorem matchRank_stable (sel : String → Page → Bool)
    (hstable : ∀ pid q n, sel pid { q with page_number := n } = sel pid q)
    (q : Page) (n : Pn) (l : List String) :
    matchRank sel { q with page_number := n } l = matchRank sel q l := by
  induction l with
  | nil => rfl
  | cons pid rest ih => simp only [matchRank, hstable, ih]

theorem matchRank_some_exists {sel : String → Page → Bool} {q : Page} {l : List String} {i : Nat}
    (h : matchRank sel q l = some i) : ∃ pid ∈ l, sel pid q = true := by
  induction l generalizing i with
  | nil => simp [matchRank] at h
  | cons pid rest ih =>
    by_cases hp : sel pid q = true
    · exact ⟨pid, List.mem_cons_self pid rest, hp⟩
    · simp only [Bool.not_eq_true] at hp
      simp only [matchRank, hp, Bool.false_eq_true, if_false, Option.map_eq_some'] at h
      obtain ⟨j, hj, _⟩ := h
      obtain ⟨pid', hmem, hsel⟩ := ih hj
      exact ⟨pid', List.mem_cons_of_mem pid hmem, hsel⟩

theorem numberLoop_eq_map (sel : String → Page → Bool)
    (hid : ∀ pid q, sel pid q = true → q.id = pid)
    (hstable : ∀ pid q n, sel pid { q with page_number := n } = sel pid q)
    (order : List String) (horder : order.Nodup)
    (pages : List Page) (hnd : (pages.map Page.id).Nodup) (n0 : Pn) :
    numberLoop sel pages order n0 = pages.map (numberSpec sel order n0) := by
  induction order generalizing pages n0 with
  | nil =>
    simp only [numberLoop, numberSpec, matchRank]
    exact (List.map_id' pages).symm
  | cons pid rest ih =>
    simp only [List.nodup_cons] at horder
    rw [numberLoop]
    rw [updateOne_eq_map sel hid pid (fun q => { q with page_number := n0 }) (fun q => rfl) pages hnd]
    have hids : ((pages.map fun q => if sel pid q then { q with page_number := n0 } else q).map Page.id)
        = pages.map Page.id := by
      rw [List.map_map]
      apply List.map_congr_left
      intro q _
      by_cases h : sel pid q = true
      · simp [h]
      · simp only [Bool.not_eq_true] at h
        simp [h]
    rw [ih horder.2 _ (by rw [hids]; exact hnd) n0.addOne, List.map_map]
    apply List.map_congr_left
    intro q _
    simp only [Function.comp]
    by_cases h : sel pid q = true
    · have hnone : matchRank sel q rest = none := by
        cases hmr : matchRank sel q rest with
        | none => rfl
        | some i =>
          obtain ⟨pid', hmem, hsel⟩ := matchRank_some_exists hmr
          have : pid' = pid := by rw [← hid pid' q hsel, hid pid q h]
          exact absurd (this ▸ hmem) horder.1
      simp only [h, if_true, numberSpec, matchRank, matchRank_stable sel hstable, hnone]
      have : (⟨n0.halves + 2 * ((0 : Nat) : Int)⟩ : Pn) = n0 := by cases n0; simp
      simp [this]
    · simp only [Bool.not_eq_true] at h
      simp only [h, Bool.false_eq_true, if_false, numberSpec, matchRank]
      cases hmr : matchRank sel q rest with
      | none => simp
      | some i =>
        simp only [Option.map_some']
        have : (⟨n0.halves + 2 * ((i + 1 : Nat) : Int)⟩ : Pn) = ⟨n0.addOne.halves + 2 * (i : Int)⟩ := by
          simp only [Pn.addOne, Pn.mk.injEq]
          push_cast
          ring
        rw [this]

theorem numberSpec_book_id (sel : String → Page → Bool) (order : List String) (n0 : Pn) (q : Page) :
    (numberSpec sel order n0 q).book_id = q.book_id := by
  unfold numberSpec
  cases matchRank sel q order <;> rfl

theorem numberSpec_id (sel : String → Page → Bool) (order : List String) (n0 : Pn) (q : Page) :
    (numberSpec sel order n0 q).id = q.id := by
  unfold numberSpec
  cases matchRank sel q order <;> rfl

theorem map_numberSpec_self (S : List Page) (hS : (S.map Page.id).Nodup) (n0 : Pn) :
    S.map (numberSpec (fun pid q => q.id == pid) (S.map Page.id) n0) = withNumbersFrom n0 S := by
  induction S generalizing n0 with
  | nil => rfl
  | cons p rest ih =>
    simp only [List.map_cons, List.nodup_cons] at hS
    simp only [List.map_cons, withNumbersFrom]
    have hhead : numberSpec (fun pid q => q.id == pid) (p.id :: rest.map Page.id) n0 p =
        { p with page_number := n0 } := by
      have h0 : (⟨n0.halves + 2 * ((0 : Nat) : Int)⟩ : Pn) = n0 := by cases n0; simp
      simp [numberSpec, matchRank, h0]
    have htail : rest.map (numberSpec (fun pid q => q.id == pid) (p.id :: rest.map Page.id) n0) =
        withNumbersFrom n0.addOne rest := by
      rw [← ih hS.2 n0.addOne]
      apply List.map_congr_left
      intro q hq
      have hne : (q.id == p.id) = false := by
        have : q.id ≠ p.id := by
          intro he
          exact hS.1 (he ▸ List.mem_map_of_mem Page.id hq)
        simp [this]
      simp only [numberSpec, matchRank, hne, Bool.false_eq_true, if_false]
      cases hmr : matchRank (fun pid q => q.id == pid) q (rest.map Page.id) with
      | none => simp
      | some i =>
        simp only [Option.map_some']
        have : (⟨n0.halves + 2 * ((i + 1 : Nat) : Int)⟩ : Pn) = ⟨n0.addOne.halves + 2 * (i : Int)⟩ := by
          simp only [Pn.addOne, Pn.mk.injEq]
          push_cast
          ring
        rw [this]
    rw [hhead, htail]

theorem map_pn_withNumbersFrom (n : Pn) (l : List Page) :
    (withNumbersFrom n l).map (fun p => p.page_number) = pnFrom n l.length := by
  induction l generalizing n with
  | nil => rfl
  | cons p rest ih => simp [withNumbersFrom, pnFrom, ih]

theorem withNumbersFrom_length (n : Pn) (l : List Page) :
    (withNumbersFrom n l).length = l.length := by
  induction l generalizing n with
  | nil => rfl
  | cons p rest ih => simp [withNumbersFrom, ih]

instance : IsAntisymm Pn Pn.le :=
  ⟨fun a b h h' => by cases a; cases b; simp only [Pn.le] at h h'; simp; omega⟩

theorem listOrdered_perm (db : Db) (b : String) : (listOrdered db b).Perm (pagesOfBook db b) :=
  List.perm_insertionSort pageLe (pagesOfBook db b)

theorem pagesOfBook_sublist (db : Db) (b : String) : (pagesOfBook db b).Sublist db.pages :=
  List.filter_sublist db.pages

theorem nodup_ids_pagesOfBook (db : Db) (b : String) (hnd : (db.pages.map Page.id).Nodup) :
    ((pagesOfBook db b).map Page.id).Nodup :=
  List.Nodup.sublist ((pagesOfBook_sublist db b).map Page.id) hnd

theorem nodup_ids_listOrdered (db : Db) (b : String) (hnd : (db.pages.map Page.id).Nodup) :
    ((listOrdered db b).map Page.id).Nodup :=
  ((listOrdered_perm db b).map Page.id).nodup_iff.mpr (nodup_ids_pagesOfBook db b hnd)

/-- The book-invariant restated on the unsorted page multiset: if the
book's pages carry the numbers `1..N` in some order, the sorted read
returns them in exactly that order. -/
theorem contiguous_of_perm (db : Db) (b : String)
    (h : ((pagesOfBook db b).map (fun p => p.page_number)).Perm
      (pnSeq 1 (pagesOfBook db b).length)) :
    contiguousNumbering db b := by
  unfold contiguousNumbering listOrdered
  have hperm : ((List.insertionSort pageLe (pagesOfBook db b)).map (fun p => p.page_number)).Perm
      (pnSeq 1 (pagesOfBook db b).length) :=
    ((List.perm_insertionSort pageLe (pagesOfBook db b)).map _).trans h
  have hs1 : List.Sorted Pn.le
      ((List.insertionSort pageLe (pagesOfBook db b)).map (fun p => p.page_number)) :=
    List.pairwise_map.mpr (List.sorted_insertionSort pageLe (pagesOfBook db b))
  have hs2 : List.Sorted Pn.le (pnSeq 1 (pagesOfBook db b).length) := by
    rw [← pnFrom_int_eq_pnSeq]
    exact sorted_le_pnFrom _ _
  exact List.eq_of_perm_of_sorted hperm hs1 hs2

theorem renumberBook_pages (db : Db) (b : String) (hnd : (db.pages.map Page.id).Nodup) :
    (renumberBook db b).pages =
      db.pages.map (numberSpec (fun pid q => q.id == pid)
        ((listOrdered db b).map (fun p => p.id)) (Pn.int 1)) := by
  unfold renumberBook
  apply numberLoop_eq_map
  · intro pid q h
    exact eq_of_beq h
  · intro pid q n
    rfl
  · exact nodup_ids_listOrdered db b hnd
  · exact hnd

theorem pagesOfBook_renumberBook (db : Db) (b : String)
    (hnd : (db.pages.map Page.id).Nodup) :
    pagesOfBook (renumberBook db b) b =
      (pagesOfBook db b).map (numberSpec (fun pid q => q.id == pid)
        ((listOrdered db b).map (fun p => p.id)) (Pn.int 1)) := by
  unfold pagesOfBook
  rw [renumberBook_pages db b hnd, List.filter_map]
  congr 1
  apply List.filter_congr
  intro q _
  simp [Function.comp, numberSpec_book_id]

/-- After any renumbering pass, the book satisfies Invariant 1 — no
precondition on the previous numbering is needed: the pass rebuilds
`1..N` from scratch. -/
theorem contiguous_renumberBook (db : Db) (b : String)
    (hnd : (db.pages.map Page.id).Nodup) :
    contiguousNumbering (renumberBook db b) b := by
  have hSids : ((listOrdered db b).map Page.id).Nodup := nodup_ids_listOrdered db b hnd
  have hpb := pagesOfBook_renumberBook db b hnd
  apply contiguous_of_perm
  rw [hpb]
  have hp : (pagesOfBook db b).Perm (listOrdered db b) := (listOrdered_perm db b).symm
  have heq : (listOrdered db b).map (numberSpec (fun pid q => q.id == pid)
        ((listOrdered db b).map (fun p => p.id)) (Pn.int 1)) =
      withNumbersFrom (Pn.int 1) (listOrdered db b) :=
    map_numberSpec_self (listOrdered db b) hSids (Pn.int 1)
  have hlen : ((pagesOfBook db b).map (numberSpec (fun pid q => q.id == pid)
        ((listOrdered db b).map (fun p => p.id)) (Pn.int 1))).length =
      (listOrdered db b).length := by
    rw [List.length_map]
    exact hp.length_eq
  rw [hlen]
  have hperm2 := (hp.map (numberSpec (fun pid q => q.id == pid)
      ((listOrdered db b).map (fun p => p.id)) (Pn.int 1))).map (fun p => p.page_number)
  rw [heq, map_pn_withNumbersFrom, pnFrom_int_eq_pnSeq] at hperm2
  exact hperm2

theorem Pn.eq_of_halves_eq {a b : Pn} (h : a.halves = b.halves) : a = b := by
  cases a; cases b; simpa using h

/-- After a renumbering pass, the sorted read returns the pages in
exactly the order the pass walked them, each with only `page_number`
rewritten (to `1..N`) and every other field untouched. -/
theorem listOrdered_renumberBook (db : Db) (b : String)
    (hnd : (db.pages.map Page.id).Nodup) :
    listOrdered (renumberBook db b) b = withNumbersFrom (Pn.int 1) (listOrdered db b) := by
  have hSids : ((listOrdered db b).map Page.id).Nodup := nodup_ids_listOrdered db b hnd
  have hperm : (listOrdered (renumberBook db b) b).Perm
      (withNumbersFrom (Pn.int 1) (listOrdered db b)) := by
    have h1 := listOrdered_perm (renumberBook db b) b
    rw [pagesOfBook_renumberBook db b hnd] at h1
    have h2 := (listOrdered_perm db b).symm.map (numberSpec (fun pid q => q.id == pid)
      ((listOrdered db b).map (fun p => p.id)) (Pn.int 1))
    rw [map_numberSpec_self (listOrdered db b) hSids (Pn.int 1)] at h2
    exact h1.trans h2
  have hcontig : (listOrdered (renumberBook db b) b).map (fun p => p.page_number) =
      pnSeq 1 (pagesOfBook (renumberBook db b) b).length :=
    contiguous_renumberBook db b hnd
  have hpairA : List.Pairwise pageLt (listOrdered (renumberBook db b) b) := by
    have hndpn : ((listOrdered (renumberBook db b) b).map (fun p => p.page_number)).Nodup := by
      rw [hcontig, ← pnFrom_int_eq_pnSeq]
      exact nodup_pnFrom _ _
    have hsA : List.Pairwise pageLe (listOrdered (renumberBook db b) b) :=
      List.sorted_insertionSort pageLe (pagesOfBook (renumberBook db b) b)
    have hne : List.Pairwise (fun a b : Page => a.page_number ≠ b.page_number)
        (listOrdered (renumberBook db b) b) := List.pairwise_map.mp hndpn
    exact (hsA.and hne).imp (fun h =>
      lt_of_le_of_ne h.1 (fun hh => h.2 (Pn.eq_of_halves_eq hh)))
  have hpairB : List.Pairwise pageLt (withNumbersFrom (Pn.int 1) (listOrdered db b)) := by
    have hpl : List.Pairwise Pn.lt
        ((withNumbersFrom (Pn.int 1) (listOrdered db b)).map (fun p => p.page_number)) := by
      rw [map_pn_withNumbersFrom]
      exact pairwise_lt_pnFrom _ _
    exact (List.pairwise_map (f := fun p : Page => p.page_number)
      (R := Pn.lt) (l := withNumbersFrom (Pn.int 1) (listOrdered db b))).mp hpl
  exact List.eq_of_perm_of_sorted hperm hpairA hpairB

theorem deletePage_ok (db : Db) (pid : String) (P : Page) (hfind : findPage db pid = some P) :
    deletePage db pid =
      .ok (renumberBook { db with pages := deleteOne (fun p => p.id == pid) db.pages } P.book_id) := by
  unfold deletePage
  rw [hfind]

theorem nodup_ids_deleteOne (pred : Page → Bool) (l : List Page)
    (hnd : (l.map Page.id).Nodup) : ((deleteOne pred l).map Page.id).Nodup :=
  List.Nodup.sublist ((deleteOne_sublist pred l).map Page.id) hnd

theorem mkNewPages_length (b : String) (n : Pn) (items : List (String × String)) :
    (mkNewPages b n items).length = items.length := by
  induction items generalizing n with
  | nil => rfl
  | cons x rest ih => simp only [mkNewPages, List.length_cons, ih]

theorem mkNewPages_map_pn (b : String) (n : Pn) (items : List (String × String)) :
    (mkNewPages b n items).map (fun p => p.page_number) = pnFrom n items.length := by
  induction items generalizing n with
  | nil => rfl
  | cons x rest ih => simp only [mkNewPages, List.map_cons, List.length_cons, pnFrom, ih]

theorem mkNewPages_filter_book (b : String) (n : Pn) (items : List (String × String)) :
    (mkNewPages b n items).filter (fun p => p.book_id == b) = mkNewPages b n items := by
  induction items generalizing n with
  | nil => rfl
  | cons x rest ih => simp only [mkNewPages, List.filter_cons, beq_self_eq_true, if_true, ih]

theorem mem_pnFrom_int (s : Int) (n : Nat) (k : Nat) (hk : k < n) :
    Pn.int (s + k) ∈ pnFrom (Pn.int s) n := by
  induction n generalizing s k with
  | zero => omega
  | succ n ih =>
    cases k with
    | zero => simp [pnFrom, Pn.int]
    | succ k =>
      have hk' : k < n := by omega
      have : Pn.int (s + (k + 1 : Nat)) = Pn.int ((s + 1) + k) := by
        simp only [Pn.int, Pn.mk.injEq]
        push_cast
        ring
      rw [this]
      simp only [pnFrom, Pn.int_addOne]
      exact List.mem_cons_of_mem _ (ih (s + 1) k hk')

/-- When a book already satisfies Invariant 1 the upload route's "max
page number + 1" computation returns `N + 1`. -/
theorem nextPageNumber_eq (db : Db) (b : String) (hinv : contiguousNumbering db b) :
    nextPageNumber db b = Pn.int ((pagesOfBook db b).length + 1) := by
  have hinv' : (listOrdered db b).map (fun p => p.page_number) =
      pnSeq 1 (pagesOfBook db b).length := hinv
  unfold nextPageNumber
  cases hD : List.insertionSort pageGe (pagesOfBook db b) with
  | nil =>
    have hlen : (pagesOfBook db b).length = 0 := by
      have hp := List.perm_insertionSort pageGe (pagesOfBook db b)
      rw [hD] at hp
      simpa using hp.length_eq.symm
    rw [hlen]
    rfl
  | cons h t =>
    set N := (pagesOfBook db b).length with hN
    have hp := List.perm_insertionSort pageGe (pagesOfBook db b)
    rw [hD] at hp
    have hNpos : 1 ≤ N := by
      have := hp.length_eq
      simp only [List.length_cons] at this
      omega
    have hmempn : ∀ x ∈ pagesOfBook db b, x.page_number ∈ pnSeq 1 N := by
      intro x hx
      have hx1 : x.page_number ∈ (pagesOfBook db b).map (fun p => p.page_number) :=
        List.mem_map_of_mem _ hx
      have hperm : ((pagesOfBook db b).map (fun p => p.page_number)).Perm (pnSeq 1 N) := by
        have := (listOrdered_perm db b).symm.map (fun p => p.page_number)
        rw [hinv'] at this
        exact this
      exact hperm.mem_iff.mp hx1
    have hhd_mem : h ∈ pagesOfBook db b := hp.mem_iff.mp (List.mem_cons_self h t)
    have hhd_le : h.page_number.halves ≤ 2 * N := by
      have := hmempn h hhd_mem
      rw [← pnFrom_int_eq_pnSeq] at this
      have hb := (mem_pnFrom this).2
      simp only [Pn.int] at hb
      omega
    have hmax_mem : Pn.int N ∈ pnSeq 1 N := by
      have : Pn.int (1 + (N - 1 : Nat)) ∈ pnFrom (Pn.int 1) N :=
        mem_pnFrom_int 1 N (N - 1) (by omega)
      rw [pnFrom_int_eq_pnSeq] at this
      have heq : Pn.int (1 + ((N - 1 : Nat) : Int)) = Pn.int N := by
        simp only [Pn.int, Pn.mk.injEq]
        omega
      rwa [heq] at this
    have hex : ∃ q ∈ pagesOfBook db b, q.page_number = Pn.int N := by
      have hperm : (pnSeq 1 N).Perm ((pagesOfBook db b).map (fun p => p.page_number)) := by
        have := (listOrdered_perm db b).map (fun p => p.page_number)
        rw [hinv'] at this
        exact this
      have := hperm.mem_iff.mp hmax_mem
      obtain ⟨q, hq, hq2⟩ := List.mem_map.mp this
      exact ⟨q, hq, hq2⟩
    obtain ⟨q, hq_mem, hq_pn⟩ := hex
    have hsorted : List.Sorted pageGe (h :: t) := by
      rw [← hD]
      exact List.sorted_insertionSort pageGe (pagesOfBook db b)
    have hge : h.page_number.halves ≥ 2 * N := by
      have hq_in : q ∈ h :: t := hp.symm.mem_iff.mp hq_mem
      rcases List.mem_cons.mp hq_in with hq_eq | hq_t
      · rw [← hq_eq, hq_pn]
        simp [Pn.int]
      · have := (List.pairwise_cons.mp hsorted).1 q hq_t
        have hph : Pn.le q.page_number h.page_number := this
        simp only [Pn.le] at hph
        rw [hq_pn] at hph
        simp only [Pn.int] at hph
        omega
    have : h.page_number = Pn.int N := Pn.eq_of_halves_eq (by simp only [Pn.int]; omega)
    change h.page_number.addOne = Pn.int ((N : Int) + 1)
    rw [this, Pn.int_addOne]

/-- Bulk ingestion preserves Invariant 1: appended pages are numbered
`N+1, N+2, ...` after the existing `1..N`. -/
theorem contiguous_insertPages (db : Db) (b : String) (items : List (String × String)) (db' : Db)
    (hinv : contiguousNumbering db b)
    (hok : insertPages db b items = .ok db') :
    contiguousNumbering db' b := by
  have hinv' : (listOrdered db b).map (fun p => p.page_number) =
      pnSeq 1 (pagesOfBook db b).length := hinv
  unfold insertPages at hok
  by_cases h1 : items.isEmpty
  · rw [if_pos h1] at hok
    cases hok
  · rw [if_neg h1] at hok
    by_cases h2 : db.books.contains b = false
    · rw [if_pos h2] at hok
      cases hok
    · rw [if_neg h2] at hok
      injection hok with hok
      subst hok
      apply contiguous_of_perm
      have hpb : pagesOfBook
          { db with pages := db.pages ++ mkNewPages b (nextPageNumber db b) items } b =
          pagesOfBook db b ++ mkNewPages b (nextPageNumber db b) items := by
        unfold pagesOfBook
        simp only [List.filter_append]
        rw [mkNewPages_filter_book]
      rw [hpb, List.map_append, mkNewPages_map_pn, List.length_append, mkNewPages_length]
      rw [nextPageNumber_eq db b hinv]
      have hsplit : pnSeq 1 ((pagesOfBook db b).length + items.length) =
          pnSeq 1 (pagesOfBook db b).length ++
            pnFrom (Pn.int ((pagesOfBook db b).length + 1)) items.length := by
        rw [← pnFrom_int_eq_pnSeq, pnFrom_append]
        congr 1
        · rw [pnFrom_int_eq_pnSeq]
        · congr 1
          simp only [Pn.int, Pn.mk.injEq]
          push_cast
          ring
      rw [hsplit]
      apply List.Perm.append _ (List.Perm.refl _)
      have := (listOrdered_perm db b).symm.map (fun p => p.page_number)
      rw [hinv'] at this
      exact this

/-- Filtering a book's pages commutes with a renumbering map, because
`numberSpec` never touches `book_id`. -/
theorem pagesOfBook_map_numberSpec (db : Db) (b : String)
    (sel : String → Page → Bool) (order : List String) (n0 : Pn) :
    pagesOfBook { db with pages := db.pages.map (numberSpec sel order n0) } b =
      (pagesOfBook db b).map (numberSpec sel order n0) := by
  unfold pagesOfBook
  rw [List.filter_map]
  congr 1
  apply List.filter_congr
  intro q _
  simp [Function.comp, numberSpec_book_id]

/-- What the reorder handler actually does when the book exists: each
listed id gets `page_number = position + 1`; everything else is left
alone.  No validation of the id list happens. -/
theorem reorder_ok (db : Db) (b : String) (order : List String)
    (hb : db.books.contains b = true)
    (hndp : (db.pages.map Page.id).Nodup) (hndo : order.Nodup) :
    reorder db b order = .ok { db with
      pages := db.pages.map (numberSpec (fun pid q => q.id == pid && q.book_id == b) order (Pn.int 1)) } := by
  unfold reorder
  rw [hb]
  simp only [Bool.true_eq_false, if_false, Except.ok.injEq]
  congr 1
  apply numberLoop_eq_map
  · intro pid q h
    simp only [Bool.and_eq_true, beq_iff_eq] at h
    exact h.1
  · intro pid q n
    rfl
  · exact hndo
  · exact hndp

/-- Rank of an id under the reorder filter coincides with its position in
the id list, for a page of the right book. -/
theorem matchRank_reorderSel (b : String) (q : Page) (hq : q.book_id = b) (l : List String) :
    matchRank (fun pid p => p.id == pid && p.book_id == b) q l = rankOf q.id l := by
  induction l with
  | nil => rfl
  | cons x xs ih =>
    by_cases h : x = q.id
    · have : (q.id == x && q.book_id == b) = true := by
        rw [h, hq]
        simp
      simp [matchRank, rankOf, this, h, hq]
    · have : (q.id == x && q.book_id == b) = false := by
        have : (q.id == x) = false := by
          simp only [beq_eq_false_iff_ne, ne_eq]
          exact fun hh => h hh.symm
        simp [this]
      simp [matchRank, rankOf, this, h, ih]

/-- The number assigned at a given rank (`none` never occurs for ids that
are actually listed; it is mapped to a junk value). -/
def pnOfRank (n0 : Pn) : Option Nat → Pn
  | some i => ⟨n0.halves + 2 * i⟩
  | none => Pn.int 0

theorem rankOf_map_self (l : List String) (hnd : l.Nodup) (n0 : Pn) :
    l.map (fun pid => pnOfRank n0 (rankOf pid l)) = pnFrom n0 l.length := by
  induction l generalizing n0 with
  | nil => rfl
  | cons x xs ih =>
    simp only [List.nodup_cons] at hnd
    simp only [List.map_cons, pnFrom, List.length_cons]
    have hhead : pnOfRank n0 (rankOf x (x :: xs)) = n0 := by
      simp only [rankOf, if_pos rfl, pnOfRank]
      cases n0
      simp
    have htail : xs.map (fun pid => pnOfRank n0 (rankOf pid (x :: xs))) =
        xs.map (fun pid => pnOfRank n0.addOne (rankOf pid xs)) := by
      apply List.map_congr_left
      intro pid hpid
      have hne : x ≠ pid := fun hh => hnd.1 (hh ▸ hpid)
      simp only [rankOf, if_neg hne]
      cases hr : rankOf pid xs with
      | none => rfl
      | some i =>
        simp only [Option.map_some', pnOfRank, Pn.addOne, Pn.mk.injEq]
        push_cast
        ring
    rw [hhead, htail, ih hnd.2 n0.addOne]

theorem rankOf_isSome_of_mem {y : String} {l : List String} (h : y ∈ l) :
    ∃ i, rankOf y l = some i := by
  induction l with
  | nil => simp at h
  | cons x xs ih =>
    by_cases hx : x = y
    · exact ⟨0, by simp [rankOf, hx]⟩
    · rcases List.mem_cons.mp h with h1 | h2
      · exact absurd h1.symm hx
      · obtain ⟨i, hi⟩ := ih h2
        exact ⟨i + 1, by simp [rankOf, hx, hi]⟩

/-- A reorder whose id list is exactly a permutation of the book's page
ids re-establishes Invariant 1. -/
theorem contiguous_reorder_perm (db : Db) (b : String) (order : List String) (db' : Db)
    (hndp : (db.pages.map Page.id).Nodup)
    (hperm : order.Perm ((pagesOfBook db b).map Page.id))
    (hok : reorder db b order = .ok db') :
    contiguousNumbering db' b := by
  have hb : db.books.contains b = true := by
    by_contra hc
    simp only [Bool.not_eq_true] at hc
    unfold reorder at hok
    rw [hc] at hok
    cases hok
  have hndo : order.Nodup := hperm.nodup_iff.mpr (nodup_ids_pagesOfBook db b hndp)
  rw [reorder_ok db b order hb hndp hndo] at hok
  injection hok with hok
  subst hok
  apply contiguous_of_perm
  rw [pagesOfBook_map_numberSpec db b (fun pid q => q.id == pid && q.book_id == b) order (Pn.int 1)]
  have hptw : ∀ q ∈ pagesOfBook db b,
      (numberSpec (fun pid p => p.id == pid && p.book_id == b) order (Pn.int 1) q).page_number =
        pnOfRank (Pn.int 1) (rankOf q.id order) := by
    intro q hq
    have hqb : q.book_id = b := by
      have := List.of_mem_filter hq
      exact eq_of_beq this
    have hqid : q.id ∈ order := hperm.symm.mem_iff.mp (List.mem_map_of_mem Page.id hq)
    obtain ⟨i, hi⟩ := rankOf_isSome_of_mem hqid
    simp [numberSpec, matchRank_reorderSel b q hqb, hi, pnOfRank]
  have hmap : ((pagesOfBook db b).map
      (numberSpec (fun pid p => p.id == pid && p.book_id == b) order (Pn.int 1))).map
        (fun p => p.page_number) =
      ((pagesOfBook db b).map Page.id).map (fun pid => pnOfRank (Pn.int 1) (rankOf pid order)) := by
    rw [List.map_map, List.map_map]
    apply List.map_congr_left
    intro q hq
    exact hptw q hq
  rw [hmap]
  have hlen : ((pagesOfBook db b).map
      (numberSpec (fun pid p => p.id == pid && p.book_id == b) order (Pn.int 1))).length =
      order.length := by
    rw [List.length_map]
    have h := hperm.length_eq
    rw [List.length_map] at h
    omega
  rw [hlen]
  have hfinal := hperm.symm.map (fun pid => pnOfRank (Pn.int 1) (rankOf pid order))
  rw [rankOf_map_self order hndo (Pn.int 1), pnFrom_int_eq_pnSeq] at hfinal
  exact hfinal

theorem find?_append_some {α : Type} {p : α → Bool} {l1 : List α} {x : α}
    (h : l1.find? p = some x) (l2 : List α) : (l1 ++ l2).find? p = some x := by
  rw [List.find?_append, h]
  rfl

theorem find?_append_none {α : Type} {p : α → Bool} {l1 : List α}
    (h : l1.find? p = none) (l2 : List α) : (l1 ++ l2).find? p = l2.find? p := by
  rw [List.find?_append, h]
  rfl

theorem find?_id_map (f : Page → Page) (hf : ∀ q, (f q).id = q.id) (pid : String)
    (l : List Page) :
    (l.map f).find? (fun p => p.id == pid) = (l.find? (fun p => p.id == pid)).map f := by
  induction l with
  | nil => rfl
  | cons x xs ih =>
    by_cases h : (x.id == pid) = true
    · have hfx : ((f x).id == pid) = true := by rw [hf]; exact h
      rw [List.map_cons, List.find?_cons_of_pos (xs.map f) hfx,
        List.find?_cons_of_pos xs h, Option.map_some']
    · have hfx : ¬ ((f x).id == pid) = true := by rw [hf]; exact h
      rw [List.map_cons, List.find?_cons_of_neg (xs.map f) hfx,
        List.find?_cons_of_neg xs h]
      exact ih

theorem find?_updateOne_self (pid : String) (f : Page → Page)
    (hf : ∀ q, (f q).id = q.id) (l : List Page) :
    (updateOne (fun q => q.id == pid) f l).find? (fun p => p.id == pid) =
      (l.find? (fun p => p.id == pid)).map f := by
  induction l with
  | nil => rfl
  | cons x xs ih =>
    by_cases h : (x.id == pid) = true
    · have hfx : ((f x).id == pid) = true := by rw [hf]; exact h
      rw [show updateOne (fun q => q.id == pid) f (x :: xs) = f x :: xs by
          simp [updateOne, h],
        List.find?_cons_of_pos xs hfx, List.find?_cons_of_pos xs h, Option.map_some']
    · have h' : (x.id == pid) = false := by simpa using h
      rw [show updateOne (fun q => q.id == pid) f (x :: xs) =
            x :: updateOne (fun q => q.id == pid) f xs by simp [updateOne, h'],
        List.find?_cons_of_neg (updateOne (fun q => q.id == pid) f xs) h,
        List.find?_cons_of_neg xs h]
      exact ih

theorem numberSpec_crop (sel : String → Page → Bool) (order : List String) (n0 : Pn) (q : Page) :
    (numberSpec sel order n0 q).crop = q.crop := by
  unfold numberSpec
  cases matchRank sel q order <;> rfl

theorem numberSpec_photo (sel : String → Page → Bool) (order : List String) (n0 : Pn) (q : Page) :
    (numberSpec sel order n0 q).photo = q.photo := by
  unfold numberSpec
  cases matchRank sel q order <;> rfl

theorem numberSpec_split_from (sel : String → Page → Bool) (order : List String) (n0 : Pn)
    (q : Page) : (numberSpec sel order n0 q).split_from = q.split_from := by
  unfold numberSpec
  cases matchRank sel q order <;> rfl

/-! ## Chained transcription pipeline (`geminiService`) -/

/-- The per-stage default prompt templates of `lib/types.ts`. -/
structure ProcessingPrompts where
  ocr : String
  translation : String
  summary : String
  deriving DecidableEq, Repr

def DEFAULT_PROMPTS : ProcessingPrompts :=
  { ocr := "You are transcribing a Renaissance Latin facsimile.

**Input:** The page image and (if available) the previous page\x27s transcription for context.

**Output:** A faithful Latin text in Markdown format.

**Instructions:**
1. Begin with `[[notes: ...]]` summarizing any image issues, uncertain readings, layout observations, or alternate expansions.
2. Include `[[page number: ####]]` near the top if visible.
3. Preserve original capitalization, punctuation, and spacing when legible.
4. Use Markdown formatting (headings, centered lines, italics) so the transcription resembles the source layout.
5. Mark uncertain characters or alternate readings inline with `[[notes: ...]]`.
6. Expand abbreviations only when certain; otherwise note the ambiguity in `[[notes]]`.

**Language:** {language}",
    translation := "You are translating a freshly transcribed Latin text into accessible English.

**Input:** The OCR transcription and (if available) the previous page\x27s translation for continuity.

**Output:** A layperson-friendly English translation in Markdown format.

**Instructions:**
1. Start with `[[notes: ...]]` mentioning prior-page context, interpretive choices, tricky phrases, historical references, or multiple possible readings.
2. Use clear Markdown mirroring the source layout (headings, centered text, line breaks).
3. Keep `[[notes: ...]]` inline wherever extra explanation or alternate translations help a general reader.
4. Style: warm museum label—explain references rather than leaving jargon unexplained.
5. Always mention continuity with the previous page if relevant.

**Source language:** {source_language}
**Target language:** {target_language}",
    summary := "Summarize the contents of this page for a general, non-specialist reader.

**Input:** The translated text and (if available) the previous page\x27s summary for context.

**Output:** A 3-5 sentence summary in Markdown format.

**Instructions:**
1. Write 3 to 5 clear sentences, optionally with bullet points.
2. Mention key people, ideas, and why the page matters to modern audiences.
3. Highlight continuity with the previous page in `[[notes: ...]]` at the top if relevant.
4. Make it accessible to someone who has never read the original text." }

/-- Character-level worker for `replaceFirst`: rewrite the first
occurrence of `pat`, leave everything else alone. -/
def replaceFirstAux (pat rep : List Char) : List Char → List Char
  | [] => []
  | c :: cs =>
    if pat.isPrefixOf (c :: cs) then rep ++ (c :: cs).drop pat.length
    else c :: replaceFirstAux pat rep cs

/-- JavaScript `String.prototype.replace` with a string pattern: replaces
only the first occurrence. -/
def replaceFirst (s pat rep : String) : String :=
  if pat = "" then s else ⟨replaceFirstAux pat.data rep.data s.data⟩

/-- JavaScript `s.slice(0, n)`: the first `n` characters (the whole
string when it is shorter). -/
def jsSlice (s : String) (n : Nat) : String := ⟨s.data.take n⟩

/-- The prompt `performOCR` sends: the override or the default template
with `{language}` substituted, then — only when a previous transcription
is present (JS truthiness: `undefined` and the empty string are both
falsy) — a context block carrying `previousPageOcr.slice(0, 2000)`. -/
def buildOcrPrompt (language : String) (previousPageOcr customPrompt : Option String) : String :=
  let prompt := replaceFirst (customPrompt.getD DEFAULT_PROMPTS.ocr) "{language}" language
  match previousPageOcr with
  | none => prompt
  | some prev =>
    if prev = "" then prompt
    else prompt ++ "\n\n**Previous page transcription for context:**\n" ++ jsSlice prev 2000 ++ "..."

/-- The prompt `performTranslation` sends: template with both language
placeholders substituted, then the text to translate, then — when
present — the previous translation truncated to 2000 characters. -/
def buildTranslationPrompt (ocrText sourceLanguage targetLanguage : String)
    (previousPageTranslation customPrompt : Option String) : String :=
  let prompt := replaceFirst (replaceFirst (customPrompt.getD DEFAULT_PROMPTS.translation)
    "{source_language}" sourceLanguage) "{target_language}" targetLanguage
  let prompt := prompt ++ "\n\n**Text to translate:**\n" ++ ocrText
  match previousPageTranslation with
  | none => prompt
  | some prev =>
    if prev = "" then prompt
    else prompt ++ "\n\n**Previous page translation for continuity:**\n" ++ jsSlice prev 2000 ++ "..."

/-- The prompt `generateSummary` sends: the override or default template,
then the translated text, then — when present — the previous page\x27s
summary appended whole (no `.slice` bound, unlike the other two stages). -/
def buildSummaryPrompt (translatedText : String)
    (previousPageSummary customPrompt : Option String) : String :=
  let prompt := (customPrompt.getD DEFAULT_PROMPTS.summary) ++
    "\n\n**Translated text:**\n" ++ translatedText
  match previousPageSummary with
  | none => prompt
  | some prev =>
    if prev = "" then prompt
    else prompt ++ "\n\n**Previous page summary for context:**\n" ++ prev

/-- The external world of `geminiService`: whether `GEMINI_API_KEY` is
set, whether fetching a given image URL succeeds, and the model\x27s reply
(or transport error) for a vision call (image URL + prompt) and for a
text call (prompt). -/
structure AIClient where
  apiKey : Bool
  fetchOk : String → Bool
  visionGen : String → String → Except String String
  textGen : String → Except String String

/-- `performOCR`: fail without the API key, build the prompt, fetch the
image (fail on a bad response), then call the vision model. -/
def performOCR (c : AIClient) (imageUrl language : String)
    (previousPageOcr customPrompt : Option String) : Except String String :=
  if c.apiKey = false then .error "GEMINI_API_KEY environment variable is not set"
  else
    let prompt := buildOcrPrompt language previousPageOcr customPrompt
    if c.fetchOk imageUrl = false then .error "Failed to fetch image"
    else c.visionGen imageUrl prompt

/-- `performTranslation`: fail without the API key, then one text call. -/
def performTranslation (c : AIClient) (ocrText sourceLanguage targetLanguage : String)
    (previousPageTranslation customPrompt : Option String) : Except String String :=
  if c.apiKey = false then .error "GEMINI_API_KEY environment variable is not set"
  else c.textGen (buildTranslationPrompt ocrText sourceLanguage targetLanguage
    previousPageTranslation customPrompt)

/-- `generateSummary`: fail without the API key, then one text call. -/
def generateSummary (c : AIClient) (translatedText : String)
    (previousPageSummary customPrompt : Option String) : Except String String :=
  if c.apiKey = false then .error "GEMINI_API_KEY environment variable is not set"
  else c.textGen (buildSummaryPrompt translatedText previousPageSummary customPrompt)

/-- The optional per-stage texts (`previousPage` context or
`customPrompts`) handed to `processPageComplete`. -/
structure StageTexts where
  ocr : Option String := none
  translation : Option String := none
  summary : Option String := none
  deriving DecidableEq, Repr

structure PipelineOutput where
  ocr : String
  translation : String
  summary : String
  deriving DecidableEq, Repr

/-- `processPageComplete`: OCR, then translation of this call\x27s OCR
output, then summary of this call\x27s translation output, each `await`ed
in order; a rejection anywhere propagates out of the function. -/
def processPageComplete (c : AIClient) (imageUrl language targetLanguage : String)
    (previousPage customPrompts : Option StageTexts) : Except String PipelineOutput := do
  let ocr ← performOCR c imageUrl language
    (previousPage.bind (fun s => s.ocr)) (customPrompts.bind (fun s => s.ocr))
  let translation ← performTranslation c ocr language targetLanguage
    (previousPage.bind (fun s => s.translation)) (customPrompts.bind (fun s => s.translation))
  let summary ← generateSummary c translation
    (previousPage.bind (fun s => s.summary)) (customPrompts.bind (fun s => s.summary))
  pure { ocr := ocr, translation := translation, summary := summary }

/-! ## Batch orchestrator (`processPages` in the prepare page) -/

/-- The outcome the prepare page tracks for one run: the `completed` and
`failed` id lists and whether the run ended through the stop flag. -/
structure BatchState where
  completed : List String
  failed : List String
  stopped : Bool
  deriving DecidableEq, Repr

/-- The `for` loop of `processPages`.  At the top of iteration `i` the
cooperative stop flag is read (`stop i`); if set, the loop breaks with
`stopped := true`.  An id with no matching page in the loaded `pages`
state is skipped (`if (!page) continue`).  Otherwise the item is
processed to completion and recorded as completed or failed according to
`outcome`; the loop then moves on regardless of failure. -/
def processPagesAux (loaded : List String) (outcome : String → Bool) (stop : Nat → Bool) :
    List String → Nat → BatchState
  | [], _ => { completed := [], failed := [], stopped := false }
  | pid :: rest, i =>
    if stop i then { completed := [], failed := [], stopped := true }
    else if loaded.contains pid = false then processPagesAux loaded outcome stop rest (i + 1)
    else
      let s := processPagesAux loaded outcome stop rest (i + 1)
      if outcome pid then { s with completed := pid :: s.completed }
      else { s with failed := pid :: s.failed }

/-- One batch run over `pageIds`: sequential, starting at index 0.
`loaded` is the id set of the loaded `pages` state, `outcome pid` is
whether the `/api/process` call for `pid` comes back ok, and `stop` is
the value of `stopProcessingRef.current` as read at the top of each
iteration (`stopProcessing` only ever sets it to `true`). -/
def processPages (loaded : List String) (outcome : String → Bool) (stop : Nat → Bool)
    (pageIds : List String) : BatchState :=
  processPagesAux loaded outcome stop pageIds 0

/-! ## Orchestrator characterizations -/

/-- An un-cancelled run sorts every supplied id into `completed` or
`failed` according to its outcome — except ids with no loaded page,
which are skipped by the `continue`. -/
theorem processPagesAux_no_stop (loaded : List String) (outcome : String → Bool)
    (ids : List String) (n : Nat) :
    processPagesAux loaded outcome (fun _ => false) ids n =
      { completed := ids.filter (fun p => loaded.contains p && outcome p),
        failed := ids.filter (fun p => loaded.contains p && !outcome p),
        stopped := false } := by
  induction ids generalizing n with
  | nil => rfl
  | cons pid rest ih =>
    simp only [processPagesAux, Bool.false_eq_true, if_false]
    cases hc : loaded.contains pid with
    | false =>
      simp only [hc, if_true, List.filter_cons, Bool.false_and, Bool.false_eq_true, if_false]
      exact ih (n + 1)
    | true =>
      simp only [hc, Bool.true_eq_false, if_false, ih (n + 1), List.filter_cons, Bool.true_and]
      cases ho : outcome pid with
      | true => simp [ho]
      | false => simp [ho]

/-- A run whose stop flag becomes set at iteration `k` behaves exactly
like the un-cancelled run over the first `k` ids and reports
`stopped := true`. -/
theorem processPagesAux_stopped (loaded : List String) (outcome : String → Bool)
    (stop : Nat → Bool) (k : Nat) (hstop : ∀ i, stop i = true ↔ k ≤ i)
    (ids : List String) (n : Nat) (hn : n ≤ k) (hk : k - n < ids.length) :
    processPagesAux loaded outcome stop ids n =
      { completed := (ids.take (k - n)).filter (fun p => loaded.contains p && outcome p),
        failed := (ids.take (k - n)).filter (fun p => loaded.contains p && !outcome p),
        stopped := true } := by
  induction ids generalizing n with
  | nil => simp at hk
  | cons pid rest ih =>
    by_cases hkn : k ≤ n
    · have hs : stop n = true := (hstop n).mpr hkn
      have hk0 : k - n = 0 := by omega
      simp [processPagesAux, hs, hk0]
    · have hs : stop n = false := by
        cases hsn : stop n with
        | false => rfl
        | true => exact absurd ((hstop n).mp hsn) hkn
      have htake : (pid :: rest).take (k - n) = pid :: rest.take (k - (n + 1)) := by
        have h1 : k - n = (k - (n + 1)) + 1 := by omega
        rw [h1]
        rfl
      simp only [processPagesAux, hs, Bool.false_eq_true, if_false, htake, List.filter_cons]
      cases hc : loaded.contains pid with
      | false =>
        simp only [hc, if_true, Bool.false_and, Bool.false_eq_true, if_false]
        exact ih (n + 1) (by omega) (by simp at hk ⊢; omega)
      | true =>
        simp only [hc, Bool.true_eq_false, if_false, Bool.true_and,
          ih (n + 1) (by omega) (by simp at hk ⊢; omega)]
        cases ho : outcome pid with
        | true => simp [ho]
        | false => simp [ho]

/-! ## Lemmas for the delete path -/

theorem renumberBook_map_id (db : Db) (b : String) (hnd : (db.pages.map Page.id).Nodup) :
    (renumberBook db b).pages.map Page.id = db.pages.map Page.id := by
  rw [renumberBook_pages db b hnd, List.map_map]
  apply List.map_congr_left
  intro q _
  simp [Function.comp, numberSpec_id]

theorem pid_not_mem_deleteOne (l : List Page) (pid : String)
    (hnd : (l.map Page.id).Nodup) :
    pid ∉ (deleteOne (fun p => p.id == pid) l).map Page.id := by
  induction l with
  | nil => simp [deleteOne]
  | cons x xs ih =>
    simp only [List.map_cons, List.nodup_cons] at hnd
    by_cases h : (x.id == pid) = true
    · simp only [deleteOne, h, if_true]
      have : x.id = pid := eq_of_beq h
      rw [← this]
      exact hnd.1
    · have h' : (x.id == pid) = false := by simpa using h
      simp only [deleteOne, h', Bool.false_eq_true, if_false, List.map_cons, List.mem_cons]
      intro hmem
      rcases hmem with h1 | h2
      · subst h1
        exact h (beq_self_eq_true x.id)
      · exact ih hnd.2 h2

/-! ## Concrete example data -/

/-- A two-page book in a valid state. -/
def dbTwoPages : Db :=
  { books := ["b"],
    pages := [
      { id := "p1", book_id := "b", page_number := Pn.int 1, photo := some "img1" },
      { id := "p2", book_id := "b", page_number := Pn.int 2, photo := some "img2" } ] }

/-- `dbTwoPages` after `reorder "b" ["p2"]`: page numbers 1, 1. -/
def dbTwoPagesPartial : Db :=
  { books := ["b"],
    pages := [
      { id := "p1", book_id := "b", page_number := Pn.int 1, photo := some "img1" },
      { id := "p2", book_id := "b", page_number := Pn.int 1, photo := some "img2" } ] }

/-- `dbTwoPages` after `reorder "b" ["p2", "p1"]`: the full permutation. -/
def dbTwoPagesSwapped : Db :=
  { books := ["b"],
    pages := [
      { id := "p1", book_id := "b", page_number := Pn.int 2, photo := some "img1" },
      { id := "p2", book_id := "b", page_number := Pn.int 1, photo := some "img2" } ] }

/-- `dbTwoPages` after splitting `p1` (keep left, ratio 50) with new id `np`. -/
def dbTwoPagesSplit : Db :=
  { books := ["b"],
    pages := [
      { id := "p1", book_id := "b", page_number := Pn.int 1, photo := some "img1",
        crop := some { xStart := 0, xEnd := 50 } },
      { id := "p2", book_id := "b", page_number := Pn.int 3, photo := some "img2" },
      { id := "np", book_id := "b", page_number := Pn.int 2, photo := some "img1",
        crop := some { xStart := 50, xEnd := 100 } } ] }

/-- The first page of `dbTwoPages`. -/
def pageOne : Page :=
  { id := "p1", book_id := "b", page_number := Pn.int 1, photo := some "img1" }

/-- The crop the origin page keeps, by side. -/
def keptCrop (side : Side) (ratio : Int) : CropData :=
  match side with
  | .left => { xStart := 0, xEnd := ratio }
  | .right => { xStart := ratio, xEnd := 100 }

/-- The crop the newly created page receives, by side. -/
def otherCrop (side : Side) (ratio : Int) : CropData :=
  match side with
  | .left => { xStart := ratio, xEnd := 100 }
  | .right => { xStart := 0, xEnd := ratio }

/-- The pages collection right after the two split writes (crop update
on the origin, insert of the new page), before the renumbering pass. -/
def splitPages (db : Db) (pid newId : String) (side : Side) (ratio : Int) (P : Page) : List Page :=
  updateOne (fun q => q.id == pid)
    (fun q => { q with crop := some (keptCrop side ratio) }) db.pages ++
  [{ id := newId, book_id := P.book_id, page_number := P.page_number.addHalf,
     photo := P.photo, crop := some (otherCrop side ratio) }]

/-- What a successful split call evaluates to, in terms of its inputs. -/
theorem applySplit_ok (db : Db) (pid newId : String) (side : Side) (ratio : Int) (P : Page)
    (hfind : findPage db pid = some P) (hph : P.photo ≠ none)
    (hbk : db.books.contains P.book_id = true) :
    applySplit db pid newId side ratio = .ok
      (renumberBook { db with pages := splitPages db pid newId side ratio P } P.book_id,
       { currentPageId := pid, currentCrop := keptCrop side ratio,
         newPageId := newId, newCrop := otherCrop side ratio,
         newPageNumber := P.page_number.addOne }) := by
  unfold applySplit
  rw [hfind]
  dsimp only
  rw [if_neg hph, if_neg (by intro h; rw [hbk] at h; cases h)]
  cases side <;> rfl

/-- C1: the claim quantifies over arbitrary reorder calls, and the
reorder handler validates nothing — a reorder sequence that is not a
permutation of the book ids completes successfully and leaves a
duplicated page number.  Starting from a valid two-page book,
`reorder "b" ["p2"]` succeeds and the book then numbers its pages 1, 1. -/
theorem C1_invariant_counterexample :
    contiguousNumbering dbTwoPages "b" ∧
    reorder dbTwoPages "b" ["p2"] = .ok dbTwoPagesPartial ∧
    ¬ contiguousNumbering dbTwoPagesPartial "b" := by
  refine ⟨by decide, by decide, by decide⟩

/-- C1 (amended): provided all page ids are distinct, `page_number`
values of a book form the contiguous ascending range `1..N` after each
structural operation — unconditionally for bulk ingestion append (from a
valid state), deletePage and applySplit (fresh new id), and for reorder
exactly when the supplied sequence is a permutation of the book's
current page ids. -/
theorem C1_invariant_contiguous_numbering (db : Db) (b : String)
    (hids : (db.pages.map Page.id).Nodup) :
    (∀ items db2, contiguousNumbering db b → insertPages db b items = .ok db2 →
      contiguousNumbering db2 b) ∧
    (∀ pid P db2, findPage db pid = some P → deletePage db pid = .ok db2 →
      contiguousNumbering db2 P.book_id) ∧
    (∀ pid newId side ratio P db2 resp, findPage db pid = some P →
      newId ∉ db.pages.map Page.id →
      applySplit db pid newId side ratio = .ok (db2, resp) →
      contiguousNumbering db2 P.book_id) ∧
    (∀ order db2, order.Perm ((pagesOfBook db b).map Page.id) →
      reorder db b order = .ok db2 → contiguousNumbering db2 b) := by
  refine ⟨?_, ?_, ?_, ?_⟩
  · intro items db2 hinv hok
    exact contiguous_insertPages db b items db2 hinv hok
  · intro pid P db2 hfind hok
    rw [deletePage_ok db pid P hfind] at hok
    injection hok with hok
    subst hok
    exact contiguous_renumberBook _ P.book_id (nodup_ids_deleteOne _ db.pages hids)
  · intro pid newId side ratio P db2 resp hfind hfresh hok
    by_cases hph : P.photo = none
    · unfold applySplit at hok
      rw [hfind] at hok
      dsimp only at hok
      rw [if_pos hph] at hok
      cases hok
    · by_cases hbk : db.books.contains P.book_id = false
      · unfold applySplit at hok
        rw [hfind] at hok
        dsimp only at hok
        rw [if_neg hph, if_pos hbk] at hok
        cases hok
      · rw [applySplit_ok db pid newId side ratio P hfind hph (by simpa using hbk)] at hok
        injection hok with hok
        injection hok with h1 h2
        subst h1
        apply contiguous_renumberBook
        show ((splitPages db pid newId side ratio P).map Page.id).Nodup
        unfold splitPages
        rw [List.map_append,
          updateOne_map_id (fun q => q.id == pid)
            (fun q => { q with crop := some (keptCrop side ratio) }) (fun q => rfl)]
        rw [List.nodup_append]
        refine ⟨hids, by simp, ?_⟩
        intro a ha hb
        simp only [List.map_cons, List.map_nil, List.mem_singleton] at hb
        subst hb
        exact hfresh ha
  · intro order db2 hperm hok
    exact contiguous_reorder_perm db b order db2 hids hperm hok

/-- C1 (witness): on the concrete two-page book, the full-permutation
reorder `["p2", "p1"]` succeeds and the invariant holds afterwards. -/
theorem C1_invariant_witness :
    reorder dbTwoPages "b" ["p2", "p1"] = .ok dbTwoPagesSwapped ∧
    contiguousNumbering dbTwoPagesSwapped "b" :=
  ⟨by decide,
    (C1_invariant_contiguous_numbering dbTwoPages "b" (by decide)).2.2.2
      ["p2", "p1"] dbTwoPagesSwapped (by decide) (by decide)⟩

/-- C2: on a valid two-page book, a reorder sequence missing page `p1`
does not fail — the handler returns success and has already moved `p2`
to page number 1 (partial application), leaving the stored ordering
changed and duplicated. -/
theorem C2_reorder_counterexample :
    reorder dbTwoPages "b" ["p2"] = .ok dbTwoPagesPartial ∧
    (findPage dbTwoPages "p2").map (fun p => p.page_number) = some (Pn.int 2) ∧
    (findPage dbTwoPagesPartial "p2").map (fun p => p.page_number) = some (Pn.int 1) ∧
    dbTwoPagesPartial ≠ dbTwoPages := by
  refine ⟨by decide, by decide, by decide, by decide⟩

/-- C2 (amended): the reorder handler never validates the supplied id
sequence against the book's pages.  Whenever the book exists it reports
success, assigning `page_number = index + 1` to each listed id (matched
with the book) and leaving every page whose id is not listed untouched —
so a partial sequence yields a partial reorder instead of
`InvalidArgument`. -/
theorem C2_reorder_unvalidated (db : Db) (b : String) (order : List String)
    (hb : db.books.contains b = true)
    (hndp : (db.pages.map Page.id).Nodup) (hndo : order.Nodup) :
    reorder db b order = .ok { db with
      pages := db.pages.map
        (numberSpec (fun pid q => q.id == pid && q.book_id == b) order (Pn.int 1)) } ∧
    ∀ q : Page, q.id ∉ order →
      numberSpec (fun pid q => q.id == pid && q.book_id == b) order (Pn.int 1) q = q := by
  constructor
  · exact reorder_ok db b order hb hndp hndo
  · intro q hq
    unfold numberSpec
    cases hmr : matchRank (fun pid q => q.id == pid && q.book_id == b) q order with
    | none => rfl
    | some i =>
      obtain ⟨pid, hmem, hsel⟩ := matchRank_some_exists hmr
      simp only [Bool.and_eq_true, beq_iff_eq] at hsel
      exact absurd (hsel.1 ▸ hmem) hq

/-- C2 (witness): the amended behaviour at the concrete partial reorder
`["p2"]` of the two-page book. -/
theorem C2_reorder_witness :
    reorder dbTwoPages "b" ["p2"] = .ok { dbTwoPages with
      pages := dbTwoPages.pages.map
        (numberSpec (fun pid q => q.id == pid && q.book_id == "b") ["p2"] (Pn.int 1)) } ∧
    ∀ q : Page, q.id ∉ ["p2"] →
      numberSpec (fun pid q => q.id == pid && q.book_id == "b") ["p2"] (Pn.int 1) q = q :=
  C2_reorder_unvalidated dbTwoPages "b" ["p2"] (by decide) (by decide) (by decide)

/-- C3: evaluating the split route on a two-page book (split `p1`, keep
the left half, ratio 50, generated id `np`).  Exactly one page is added;
the new page carries the complementary crop `[50, 100]`, the same
underlying image reference `img1`, and the provisional `1 + 0.5` is
resolved so the final numbering is `1, 2, 3` with the new page directly
after its origin.  But the new page has NO `split_from` field — the
route never sets it, although the repository's own `Page` type
documents it ("ID of parent page if this was split from another") and
the prepare UI tests `!!page.split_from`. -/
theorem C3_split_no_split_from :
    applySplit dbTwoPages "p1" "np" Side.left 50 = .ok (dbTwoPagesSplit,
      { currentPageId := "p1", currentCrop := { xStart := 0, xEnd := 50 },
        newPageId := "np", newCrop := { xStart := 50, xEnd := 100 },
        newPageNumber := Pn.int 2 }) ∧
    dbTwoPagesSplit.pages.length = dbTwoPages.pages.length + 1 ∧
    (findPage dbTwoPagesSplit "np").map (fun p => p.photo) = some (some "img1") ∧
    (findPage dbTwoPagesSplit "np").map (fun p => p.crop) =
      some (some { xStart := 50, xEnd := 100 }) ∧
    (findPage dbTwoPagesSplit "p1").map (fun p => p.crop) =
      some (some { xStart := 0, xEnd := 50 }) ∧
    (findPage dbTwoPagesSplit "np").map (fun p => p.page_number) = some (Pn.int 2) ∧
    (listOrdered dbTwoPagesSplit "b").map (fun p => p.page_number) = pnSeq 1 3 ∧
    (findPage dbTwoPagesSplit "np").map (fun p => p.split_from) = some none := by
  refine ⟨by decide, by decide, by decide, by decide, by decide, by decide, by decide, by decide⟩

/-- C4: the split route writes crops on a 0-100 scale, not the 0-1000
scale the claim states: at the default ratio 50 the complementary crop
is `[50, 100]`, whose `xEnd` is 100 and not 1000. -/
theorem C4_crop_scale_counterexample :
    applySplit dbTwoPages "p1" "np" Side.left 50 = .ok (dbTwoPagesSplit,
      { currentPageId := "p1", currentCrop := { xStart := 0, xEnd := 50 },
        newPageId := "np", newCrop := { xStart := 50, xEnd := 100 },
        newPageNumber := Pn.int 2 }) ∧
    ({ xStart := 50, xEnd := 100 } : CropData).xEnd = 100 ∧
    ¬ ({ xStart := 50, xEnd := 100 } : CropData).xEnd = 1000 := by
  refine ⟨by decide, by decide, by decide⟩

/-- C4 (amended): for every splitRatio, applySplit defines the two crop
regions as `left = [0, splitRatio]` and `right = [splitRatio, 100]` on
the route's normalized 0-100 horizontal axis; they are complementary and
non-overlapping with the `xEnd` of the left equal to the `xStart` of the
right (both `splitRatio`), the page named by `side` stores the
corresponding crop and the new page stores the other. -/
theorem C4_split_crops (db : Db) (pid newId : String) (side : Side) (ratio : Int) (P : Page)
    (db2 : Db) (resp : SplitResponse)
    (hids : (db.pages.map Page.id).Nodup)
    (hfresh : newId ∉ db.pages.map Page.id)
    (hfind : findPage db pid = some P)
    (hph : P.photo ≠ none)
    (hbk : db.books.contains P.book_id = true)
    (hok : applySplit db pid newId side ratio = .ok (db2, resp)) :
    resp.currentCrop = keptCrop side ratio ∧
    resp.newCrop = otherCrop side ratio ∧
    keptCrop Side.left ratio = { xStart := 0, xEnd := ratio } ∧
    otherCrop Side.left ratio = { xStart := ratio, xEnd := 100 } ∧
    (keptCrop Side.left ratio).xEnd = (otherCrop Side.left ratio).xStart ∧
    (findPage db2 pid).map (fun p => p.crop) = some (some (keptCrop side ratio)) ∧
    (findPage db2 newId).map (fun p => p.crop) = some (some (otherCrop side ratio)) := by
  rw [applySplit_ok db pid newId side ratio P hfind hph hbk] at hok
  injection hok with hok
  injection hok with h1 h2
  subst h1
  subst h2
  have hnd1 : ((splitPages db pid newId side ratio P).map Page.id).Nodup := by
    unfold splitPages
    rw [List.map_append,
      updateOne_map_id (fun q => q.id == pid)
        (fun q => { q with crop := some (keptCrop side ratio) }) (fun q => rfl)]
    rw [List.nodup_append]
    refine ⟨hids, by simp, ?_⟩
    intro a ha hb
    simp only [List.map_cons, List.map_nil, List.mem_singleton] at hb
    subst hb
    exact hfresh ha
  have hfind' : db.pages.find? (fun p => p.id == pid) = some P := hfind
  refine ⟨rfl, rfl, rfl, rfl, rfl, ?_, ?_⟩
  · unfold findPage
    rw [show (renumberBook { db with pages := splitPages db pid newId side ratio P }
        P.book_id).pages = _ from renumberBook_pages _ P.book_id hnd1]
    rw [find?_id_map _ (numberSpec_id _ _ _) pid]
    have hleft : (updateOne (fun q => q.id == pid)
        (fun q => { q with crop := some (keptCrop side ratio) }) db.pages).find?
          (fun p => p.id == pid) =
        some { P with crop := some (keptCrop side ratio) } := by
      rw [find?_updateOne_self pid
        (fun q => { q with crop := some (keptCrop side ratio) }) (fun q => rfl), hfind']
      rfl
    rw [show (splitPages db pid newId side ratio P).find? (fun p => p.id == pid) =
        some { P with crop := some (keptCrop side ratio) } from
      find?_append_some hleft _]
    simp [numberSpec_crop]
  · unfold findPage
    rw [show (renumberBook { db with pages := splitPages db pid newId side ratio P }
        P.book_id).pages = _ from renumberBook_pages _ P.book_id hnd1]
    rw [find?_id_map _ (numberSpec_id _ _ _) newId]
    have hleft : (updateOne (fun q => q.id == pid)
        (fun q => { q with crop := some (keptCrop side ratio) }) db.pages).find?
          (fun p => p.id == newId) = none := by
      apply List.find?_eq_none.mpr
      intro x hx hbeq
      have hxid : x.id ∈ (updateOne (fun q => q.id == pid)
          (fun q => { q with crop := some (keptCrop side ratio) }) db.pages).map Page.id :=
        List.mem_map_of_mem Page.id hx
      rw [updateOne_map_id (fun q => q.id == pid)
        (fun q => { q with crop := some (keptCrop side ratio) }) (fun q => rfl)] at hxid
      rw [eq_of_beq hbeq] at hxid
      exact hfresh hxid
    rw [show (splitPages db pid newId side ratio P).find? (fun p => p.id == newId) =
        some { id := newId, book_id := P.book_id, page_number := P.page_number.addHalf,
               photo := P.photo, crop := some (otherCrop side ratio) } from by
      unfold splitPages
      rw [find?_append_none hleft]
      simp [List.find?]]
    simp [numberSpec_crop]

/-- C4 (witness): the amended statement at the concrete split of the
two-page book. -/
theorem C4_split_crops_witness :
    ({ currentPageId := "p1", currentCrop := { xStart := 0, xEnd := 50 },
       newPageId := "np", newCrop := { xStart := 50, xEnd := 100 },
       newPageNumber := Pn.int 2 } : SplitResponse).currentCrop = keptCrop Side.left 50 ∧
    (findPage dbTwoPagesSplit "np").map (fun p => p.crop) =
      some (some (otherCrop Side.left 50)) := by
  have h := C4_split_crops dbTwoPages "p1" "np" Side.left 50 pageOne dbTwoPagesSplit
    { currentPageId := "p1", currentCrop := { xStart := 0, xEnd := 50 },
      newPageId := "np", newCrop := { xStart := 50, xEnd := 100 },
      newPageNumber := Pn.int 2 }
    (by decide) (by decide) (by decide) (by decide) (by decide) (by decide)
  exact ⟨h.1, h.2.2.2.2.2.2⟩

theorem exceptBind_ok {α β : Type} (a : α) (f : α → Except String β) :
    (Except.ok a >>= f) = f a := rfl

theorem exceptBind_error {α β : Type} (e : String) (f : α → Except String β) :
    ((Except.error e : Except String α) >>= f) = Except.error e := rfl

/-- Unfolding of `processPageComplete` as the staged cascade. -/
theorem processPageComplete_eq (c : AIClient) (imageUrl language targetLanguage : String)
    (previousPage customPrompts : Option StageTexts) :
    processPageComplete c imageUrl language targetLanguage previousPage customPrompts =
      match performOCR c imageUrl language (previousPage.bind (fun s => s.ocr))
          (customPrompts.bind (fun s => s.ocr)) with
      | .error e => .error e
      | .ok ocr =>
        match performTranslation c ocr language targetLanguage
            (previousPage.bind (fun s => s.translation))
            (customPrompts.bind (fun s => s.translation)) with
        | .error e => .error e
        | .ok t =>
          match generateSummary c t (previousPage.bind (fun s => s.summary))
              (customPrompts.bind (fun s => s.summary)) with
          | .error e => .error e
          | .ok su => .ok { ocr := ocr, translation := t, summary := su } := by
  unfold processPageComplete
  cases hO : performOCR c imageUrl language (previousPage.bind (fun s => s.ocr))
      (customPrompts.bind (fun s => s.ocr)) with
  | error e => rfl
  | ok o =>
    rw [exceptBind_ok]
    dsimp only
    cases hT : performTranslation c o language targetLanguage
        (previousPage.bind (fun s => s.translation))
        (customPrompts.bind (fun s => s.translation)) with
    | error e => rfl
    | ok t =>
      rw [exceptBind_ok]
      dsimp only
      cases hS : generateSummary c t (previousPage.bind (fun s => s.summary))
          (customPrompts.bind (fun s => s.summary)) with
      | error e => rfl
      | ok su => rfl

/-- C5: the abort half of the claim holds — a failing stage stops the
cascade and its error is what `processPageComplete` propagates; the
stages after the failure contribute nothing to the result.  (The other
half of the claim is refuted separately: nothing besides the error is
returned.) -/
theorem C5_stage_failure_aborts (c : AIClient) (imageUrl language targetLanguage : String)
    (previousPage customPrompts : Option StageTexts) (e : String) :
    (performOCR c imageUrl language (previousPage.bind (fun s => s.ocr))
        (customPrompts.bind (fun s => s.ocr)) = .error e →
      processPageComplete c imageUrl language targetLanguage previousPage customPrompts =
        .error e) ∧
    (∀ o, performOCR c imageUrl language (previousPage.bind (fun s => s.ocr))
        (customPrompts.bind (fun s => s.ocr)) = .ok o →
      performTranslation c o language targetLanguage
        (previousPage.bind (fun s => s.translation))
        (customPrompts.bind (fun s => s.translation)) = .error e →
      processPageComplete c imageUrl language targetLanguage previousPage customPrompts =
        .error e) ∧
    (∀ o t, performOCR c imageUrl language (previousPage.bind (fun s => s.ocr))
        (customPrompts.bind (fun s => s.ocr)) = .ok o →
      performTranslation c o language targetLanguage
        (previousPage.bind (fun s => s.translation))
        (customPrompts.bind (fun s => s.translation)) = .ok t →
      generateSummary c t (previousPage.bind (fun s => s.summary))
        (customPrompts.bind (fun s => s.summary)) = .error e →
      processPageComplete c imageUrl language targetLanguage previousPage customPrompts =
        .error e) := by
  refine ⟨?_, ?_, ?_⟩
  · intro h
    rw [processPageComplete_eq, h]
  · intro o h1 h2
    rw [processPageComplete_eq, h1]
    dsimp only
    rw [h2]
  · intro o t h1 h2 h3
    rw [processPageComplete_eq, h1]
    dsimp only
    rw [h2]
    dsimp only
    rw [h3]

/-- A client whose OCR succeeds and whose first text call (translation)
fails. -/
def clientStage2Fails : AIClient :=
  { apiKey := true, fetchOk := fun _ => true,
    visionGen := fun _ _ => .ok "PAGE ONE TEXT",
    textGen := fun _ => .error "translation boom" }

/-- Same failing client but with a different successful OCR output. -/
def clientStage2FailsVariant : AIClient :=
  { apiKey := true, fetchOk := fun _ => true,
    visionGen := fun _ _ => .ok "DIFFERENT OCR OUTPUT",
    textGen := fun _ => .error "translation boom" }

/-- C5: the claim that `processPageComplete` "returns the outputs of the
stages that completed before the failure together with the error" is
false.  In two runs whose OCR stage completes with different outputs and
whose translation stage then fails, the whole return value is the bare
rejection `error "translation boom"` both times — the completed OCR
output is discarded, not returned. -/
theorem C5_partial_output_counterexample :
    performOCR clientStage2Fails "img" "Latin" none none = .ok "PAGE ONE TEXT" ∧
    performOCR clientStage2FailsVariant "img" "Latin" none none = .ok "DIFFERENT OCR OUTPUT" ∧
    processPageComplete clientStage2Fails "img" "Latin" "English" none none =
      .error "translation boom" ∧
    processPageComplete clientStage2FailsVariant "img" "Latin" "English" none none =
      .error "translation boom" := by
  refine ⟨by decide, by decide, by decide, by decide⟩

/-- C5 (witness): the amended abort behaviour at the concrete failing
client. -/
theorem C5_stage_failure_witness :
    processPageComplete clientStage2Fails "img" "Latin" "English" none none =
      .error "translation boom" :=
  (C5_stage_failure_aborts clientStage2Fails "img" "Latin" "English" none none
      "translation boom").2.1 "PAGE ONE TEXT" (by decide) (by decide)

/-- C6: `deletePage` on an existing page succeeds, removes the page, and
renumbers the remaining pages of the same book to `1..N` by ascending
current `page_number`, preserving their prior relative order and all
fields other than `page_number` (the `withNumbersFrom` form rewrites
page numbers only). -/
theorem C6_delete_renumbers (db : Db) (pid : String) (P : Page)
    (hids : (db.pages.map Page.id).Nodup)
    (hfind : findPage db pid = some P) :
    deletePage db pid = .ok (renumberBook
      { db with pages := deleteOne (fun p => p.id == pid) db.pages } P.book_id) ∧
    findPage (renumberBook
      { db with pages := deleteOne (fun p => p.id == pid) db.pages } P.book_id) pid = none ∧
    listOrdered (renumberBook
        { db with pages := deleteOne (fun p => p.id == pid) db.pages } P.book_id) P.book_id =
      withNumbersFrom (Pn.int 1)
        (listOrdered { db with pages := deleteOne (fun p => p.id == pid) db.pages } P.book_id) ∧
    contiguousNumbering (renumberBook
      { db with pages := deleteOne (fun p => p.id == pid) db.pages } P.book_id) P.book_id := by
  have hndE : ((deleteOne (fun p => p.id == pid) db.pages).map Page.id).Nodup :=
    nodup_ids_deleteOne _ db.pages hids
  refine ⟨deletePage_ok db pid P hfind, ?_,
    listOrdered_renumberBook _ P.book_id hndE, contiguous_renumberBook _ P.book_id hndE⟩
  unfold findPage
  apply List.find?_eq_none.mpr
  intro x hx hbeq
  have hxid : x.id ∈ (renumberBook
      { db with pages := deleteOne (fun p => p.id == pid) db.pages } P.book_id).pages.map
        Page.id := List.mem_map_of_mem Page.id hx
  rw [renumberBook_map_id _ P.book_id hndE] at hxid
  rw [eq_of_beq hbeq] at hxid
  exact pid_not_mem_deleteOne db.pages pid hids hxid

/-- C6 (witness): deleting `p1` from the two-page book via the theorem. -/
theorem C6_delete_renumbers_witness :
    deletePage dbTwoPages "p1" = .ok (renumberBook
      { dbTwoPages with pages := deleteOne (fun p => p.id == "p1") dbTwoPages.pages }
      pageOne.book_id) ∧
    contiguousNumbering (renumberBook
      { dbTwoPages with pages := deleteOne (fun p => p.id == "p1") dbTwoPages.pages }
      pageOne.book_id) pageOne.book_id :=
  ⟨(C6_delete_renumbers dbTwoPages "p1" pageOne (by decide) (by decide)).1,
   (C6_delete_renumbers dbTwoPages "p1" pageOne (by decide) (by decide)).2.2.2⟩

/-- C7: when a previous transcription is supplied (and nonempty, per JS
truthiness) the OCR prompt is the no-context prompt plus a context block
carrying exactly `previousPageOcr.slice(0, 2000)`; without previous
context the prompt is just the (override or default) template with
`{language}` substituted, and the stage succeeds whenever the key,
fetch, and model call succeed — previous context is not a dependency. -/
theorem C7_transcribe_context (language prev : String) (customPrompt : Option String)
    (hprev : prev ≠ "") :
    buildOcrPrompt language (some prev) customPrompt =
      buildOcrPrompt language none customPrompt ++
        "\n\n**Previous page transcription for context:**\n" ++ jsSlice prev 2000 ++ "..." ∧
    buildOcrPrompt language none customPrompt =
      replaceFirst (customPrompt.getD DEFAULT_PROMPTS.ocr) "{language}" language ∧
    ∀ (c : AIClient) (imageUrl r : String), c.apiKey = true → c.fetchOk imageUrl = true →
      c.visionGen imageUrl (buildOcrPrompt language none customPrompt) = .ok r →
      performOCR c imageUrl language none customPrompt = .ok r := by
  refine ⟨?_, rfl, ?_⟩
  · simp only [buildOcrPrompt, if_neg hprev]
  · intro c imageUrl r hkey hfetch hgen
    unfold performOCR
    rw [if_neg (by simp [hkey]), if_neg (by simp [hfetch])]
    exact hgen

/-- A fully successful stub client. -/
def clientOk : AIClient :=
  { apiKey := true, fetchOk := fun _ => true,
    visionGen := fun _ _ => .ok "TEXT", textGen := fun _ => .ok "TEXT" }

/-- C7 (witness): concrete instance of the context equation and of the
no-context success. -/
theorem C7_transcribe_context_witness :
    buildOcrPrompt "Latin" (some "ABC") none =
      buildOcrPrompt "Latin" none none ++
        "\n\n**Previous page transcription for context:**\n" ++ jsSlice "ABC" 2000 ++ "..." ∧
    performOCR clientOk "img" "Latin" none none = .ok "TEXT" :=
  ⟨(C7_transcribe_context "Latin" "ABC" none (by decide)).1,
   (C7_transcribe_context "Latin" "ABC" none (by decide)).2.2 clientOk "img" "TEXT" rfl rfl rfl⟩

/-- C8: the cancellation flag is read at the top of each loop iteration;
a run whose flag becomes set at iteration `k` (and stays set — the flag
is only ever set, never cleared, within a run) is identical to the
un-cancelled run over the first `k` ids, with `stopped` reported true:
no item at or beyond index `k` is ever started, and the
completed/failed lists are exactly those accumulated so far. -/
theorem C8_cooperative_stop (loaded : List String) (outcome : String → Bool)
    (stop : Nat → Bool) (k : Nat) (ids : List String)
    (hstop : ∀ i, stop i = true ↔ k ≤ i) (hk : k < ids.length) :
    processPages loaded outcome stop ids =
      { completed := (processPages loaded outcome (fun _ => false) (ids.take k)).completed,
        failed := (processPages loaded outcome (fun _ => false) (ids.take k)).failed,
        stopped := true } := by
  unfold processPages
  rw [processPagesAux_stopped loaded outcome stop k hstop ids 0 (Nat.zero_le k)
    (by simpa using hk)]
  rw [processPagesAux_no_stop]
  simp

/-- C8 (witness): a three-item batch whose stop flag is set from
iteration 1 onward completes only the first item and reports Stopped. -/
theorem C8_cooperative_stop_witness :
    processPages ["a", "b", "c"] (fun _ => true) (fun i => decide (1 ≤ i)) ["a", "b", "c"] =
      { completed := ["a"], failed := [], stopped := true } := by
  rw [C8_cooperative_stop ["a", "b", "c"] (fun _ => true) (fun i => decide (1 ≤ i)) 1
    ["a", "b", "c"] (fun i => by simp) (by decide)]
  decide

/-- C9: the orchestrator silently drops a supplied id that has no
matching page in the loaded `pages` state: the `if (!page) continue`
branch records it in neither `completedIds` nor `failedIds`, even in an
un-cancelled run. -/
theorem C9_silent_skip_counterexample :
    processPages ["a"] (fun _ => true) (fun _ => false) ["b"] =
      { completed := [], failed := [], stopped := false } ∧
    "b" ∉ (processPages ["a"] (fun _ => true) (fun _ => false) ["b"]).completed ∧
    "b" ∉ (processPages ["a"] (fun _ => true) (fun _ => false) ["b"]).failed := by
  refine ⟨by decide, by decide, by decide⟩

/-- C9 (amended): in an un-cancelled run, every supplied id that has a
matching loaded page ends in exactly one of `completedIds` or
`failedIds` (failures do not halt the batch); only ids with no loaded
page are skipped silently. -/
theorem C9_loaded_ids_partition (loaded : List String) (outcome : String → Bool)
    (ids : List String) (pid : String) (hmem : pid ∈ ids)
    (hload : loaded.contains pid = true) :
    (outcome pid = true →
      pid ∈ (processPages loaded outcome (fun _ => false) ids).completed ∧
      pid ∉ (processPages loaded outcome (fun _ => false) ids).failed) ∧
    (outcome pid = false →
      pid ∈ (processPages loaded outcome (fun _ => false) ids).failed ∧
      pid ∉ (processPages loaded outcome (fun _ => false) ids).completed) ∧
    (processPages loaded outcome (fun _ => false) ids).stopped = false := by
  have hmeml : pid ∈ loaded := List.mem_of_elem_eq_true hload
  unfold processPages
  rw [processPagesAux_no_stop]
  refine ⟨?_, ?_, rfl⟩
  · intro ho
    constructor
    · exact List.mem_filter.mpr ⟨hmem, by simp [hmeml, ho]⟩
    · intro hmf
      have := (List.mem_filter.mp hmf).2
      simp [ho] at this
  · intro ho
    constructor
    · exact List.mem_filter.mpr ⟨hmem, by simp [hmeml, ho]⟩
    · intro hmf
      have := (List.mem_filter.mp hmf).2
      simp [ho] at this

/-- C9 (witness): in a concrete two-item run with one failure, the
failed id lands in `failedIds` only and the batch is not halted. -/
theorem C9_loaded_ids_partition_witness :
    "b" ∈ (processPages ["a", "b"] (fun p => p == "a") (fun _ => false) ["a", "b"]).failed ∧
    "b" ∉ (processPages ["a", "b"] (fun p => p == "a") (fun _ => false) ["a", "b"]).completed :=
  (C9_loaded_ids_partition ["a", "b"] (fun p => p == "a") ["a", "b"] "b"
    (by decide) (by decide)).2.1 (by decide)

/-- C10: unlike the OCR and translation prompts, which append only
`slice(0, 2000)` of the previous-page context, `generateSummary` appends
the previous page\x27s summary whole: the appended block equals the full
string for every nonempty input, so the summary prompt grows without
bound in the context\x27s length, while a sliced context never exceeds
2000 characters. -/
theorem C10_summary_context_unbounded (t s : String) (c : Option String) (hs : s ≠ "") :
    buildSummaryPrompt t (some s) c =
      buildSummaryPrompt t none c ++ "\n\n**Previous page summary for context:**\n" ++ s ∧
    s.length ≤ (buildSummaryPrompt t (some s) c).length ∧
    (∀ o sl tl pc, buildTranslationPrompt o sl tl (some s) pc =
      buildTranslationPrompt o sl tl none pc ++
        "\n\n**Previous page translation for continuity:**\n" ++ jsSlice s 2000 ++ "...") ∧
    (∀ lang pc, buildOcrPrompt lang (some s) pc =
      buildOcrPrompt lang none pc ++
        "\n\n**Previous page transcription for context:**\n" ++ jsSlice s 2000 ++ "...") ∧
    ∀ n, (jsSlice s n).length ≤ n := by
  have h1 : buildSummaryPrompt t (some s) c =
      buildSummaryPrompt t none c ++ "\n\n**Previous page summary for context:**\n" ++ s := by
    simp only [buildSummaryPrompt, if_neg hs]
  refine ⟨h1, ?_, ?_, ?_, ?_⟩
  · rw [h1, String.length_append, String.length_append]
    omega
  · intro o sl tl pc
    simp only [buildTranslationPrompt, if_neg hs]
  · intro lang pc
    simp only [buildOcrPrompt, if_neg hs]
  · intro n
    show (s.data.take n).length ≤ n
    rw [List.length_take]
    omega

/-- C10 (witness): concrete instance with a short summary context. -/
theorem C10_summary_context_unbounded_witness :
    buildSummaryPrompt "TT" (some "SS") (some "P") =
      buildSummaryPrompt "TT" none (some "P") ++
        "\n\n**Previous page summary for context:**\n" ++ "SS" ∧
    ("SS" : String).length ≤ (buildSummaryPrompt "TT" (some "SS") (some "P")).length :=
  ⟨(C10_summary_context_unbounded "TT" "SS" (some "P") (by decide)).1,
   (C10_summary_context_unbounded "TT" "SS" (some "P") (by decide)).2.1⟩
